import Mathlib

/-!
Shallow embedding of the `ir_remote` repository (files `main.py` and
`main_debug.py`): NEC infrared protocol decoding, the code table mapping
decoded 4-byte codes to action names, the learning mode, and the bounded
pulse-capture loop.  Pulse durations and byte values are modelled as `Nat`
(they are non-negative microsecond counts and 8-bit accumulations that never
overflow Python's integers).  Fallible operations return `Option`.
-/

namespace IrRemote

/-- Classification of a single space duration into a logical bit, from the
loop body of `decode_nec` (`main.py` lines 58-64): a space strictly between
400 and 700 µs is bit 0, strictly between 1500 and 1800 µs is bit 1, and
anything else is the ambiguous marker (Python appends `'?'`; modelled as
`none`). -/
def classifyBit (low : Nat) : Option Nat :=
  if 400 < low ∧ low < 700 then some 0
  else if 1500 < low ∧ low < 1800 then some 1
  else none

/-- One byte assembled from a slice of bits, from `main.py` lines 71-73:
`byte = 0`, then for each bit `byte = (byte << 1) | b`. -/
def packByte (bits : List Nat) : Nat :=
  bits.foldl (fun byte b => (byte <<< 1) ||| b) 0

/-- The 4-byte code assembled from the 32 bits, from `main.py` lines 69-74:
`for i in range(0, 32, 8)` packs `bits[i:i+8]` into one byte each. -/
def packCode (bits : List Nat) : List Nat :=
  [0, 8, 16, 24].map (fun i => packByte ((bits.drop i).take 8))

/-- The index list `range(2, 66, 2)` used by both decoders to walk the
data-bit pairs: `[2, 4, ..., 64]`. -/
def bitIndices : List Nat :=
  (List.range 32).map (fun k => 2 + 2 * k)

/-- The local variable `bits` of `decode_nec` (`main.py` lines 56-64): the
classification of every data-bit space, with `none` standing for the
question-mark marker Python appends on an ambiguous duration. -/
def necBits (pulses : List Nat) : List (Option Nat) :=
  bitIndices.map (fun i => classifyBit (pulses.getD (i + 1) 0))

/-- `decode_nec` from `main.py` lines 48-76.  Rejects sequences shorter than
66 entries; checks the NEC header (entry 0 strictly between 8500 and 9500,
entry 1 strictly between 4000 and 5000); classifies each space at positions
`i+1` for `i in range(2, 66, 2)`, collecting markers for ambiguous
durations; rejects if any marker is present; otherwise packs the 32 bits into
4 bytes.  List indexing `pulses[i]` is modelled by `List.getD` (all indices
accessed are below the checked length 66). -/
def decode_nec (pulses : List Nat) : Option (List Nat) :=
  if pulses.length < 66 then none
  else if ¬(8500 < pulses.getD 0 0 ∧ pulses.getD 0 0 < 9500 ∧
            4000 < pulses.getD 1 0 ∧ pulses.getD 1 0 < 5000) then none
  else if none ∈ necBits pulses then none
  else some (packCode ((necBits pulses).map (fun b => b.getD 0)))

namespace IRRemoteDecoder

/-- The bit-collection loop of `IRRemoteDecoder.decode_nec`
(`main_debug.py` lines 83-97): walks the given index list; `break`s (keeping
the bits collected so far) when `i+1 >= len(pulses)`; returns `None`
immediately on an ambiguous duration; otherwise appends the classified bit. -/
def collectBits (pulses : List Nat) : List Nat → Option (List Nat)
  | [] => some []
  | i :: rest =>
    if pulses.length ≤ i + 1 then some []
    else
      match classifyBit (pulses.getD (i + 1) 0) with
      | some b => (collectBits pulses rest).map (fun bs => b :: bs)
      | none => none

/-- `IRRemoteDecoder.decode_nec` from `main_debug.py` lines 69-112: same
length and header checks as `main.py`, then the bit loop with early `break`
and immediate rejection, then the `len(bits) < 32` check, then packing.
Debug printing has no effect on the result and is omitted. -/
def decode_nec (pulses : List Nat) : Option (List Nat) :=
  if pulses.length < 66 then none
  else if ¬(8500 < pulses.getD 0 0 ∧ pulses.getD 0 0 < 9500 ∧
            4000 < pulses.getD 1 0 ∧ pulses.getD 1 0 < 5000) then none
  else
    match collectBits pulses bitIndices with
    | none => none
    | some bits => if bits.length < 32 then none else some (packCode bits)

end IRRemoteDecoder

/-- The specification-side rendering of most-significant-bit-first packing:
the head of the list is the most significant bit. -/
def msbVal : List Nat → Nat
  | [] => 0
  | b :: t => b * 2 ^ t.length + msbVal t

/-- A 4-byte code used as dictionary key: Python's `tuple(code)` for the
4-element list returned by `decode_nec`. -/
abbrev Code := Nat × Nat × Nat × Nat

/-- The mutable dictionary `button_codes` mapping codes to button names,
modelled as an insertion-ordered association list with unique keys
(Python `dict` semantics). -/
abbrev CodeTable := List (Code × String)

/-- Dictionary lookup `button_codes[key]` / `key in button_codes`. -/
def lookup (t : CodeTable) (c : Code) : Option String :=
  (t.find? (fun p => decide (p.1 = c))).map Prod.snd

/-- Dictionary assignment `button_codes[key] = name`
(`main_debug.py` line 172): overwrites the value when the key is present,
otherwise appends the new pair at the end (Python dicts preserve insertion
order). -/
def bindCode (t : CodeTable) (c : Code) (n : String) : CodeTable :=
  if t.any (fun p => decide (p.1 = c)) then
    t.map (fun p => if p.1 = c then (p.1, n) else p)
  else t ++ [(c, n)]

/-- Python's `tuple(code)` for the 4-element byte list. -/
def toTuple (code : List Nat) : Code :=
  (code.getD 0 0, code.getD 1 0, code.getD 2 0, code.getD 3 0)

/-- The mutable state of an `IRRemoteDecoder` instance relevant to decoding
and learning (`main_debug.py` lines 20-39): the output-pin names (dictionary
keys of `self.outputs`), the code table, and the learning-mode flag and
target. Pins and debug printing carry no decoding state and are omitted. -/
structure IRState where
  button_codes : CodeTable
  outputs : List String
  learning_mode : Bool
  learning_button : String
deriving DecidableEq

/-- The pre-seeded code table from `IRRemoteDecoder.__init__`
(`main_debug.py` lines 26-34); identical to `button_codes` in `main.py`. -/
def defaultCodes : CodeTable :=
  [((0x61, 0xD6, 0x48, 0xB7), "POWER"),
   ((0x61, 0xD6, 0xD8, 0x27), "UP"),
   ((0x61, 0xD6, 0x58, 0xA7), "DOWN"),
   ((0x61, 0xD6, 0x20, 0xDF), "LEFT"),
   ((0x61, 0xD6, 0x60, 0x9F), "RIGHT"),
   ((0x61, 0xD6, 0xA0, 0x5F), "MENU")]

/-- The default output-pin names from `IRRemoteDecoder.__init__`
(`main_debug.py` lines 13-17). -/
def defaultOutputs : List String :=
  ["POWER", "UP", "DOWN", "LEFT", "RIGHT", "MENU"]

/-- The state right after `IRRemoteDecoder.__init__` with default pins. -/
def initState : IRState :=
  { button_codes := defaultCodes
    outputs := defaultOutputs
    learning_mode := false
    learning_button := "" }

/-- `IRRemoteDecoder.process_ir_signal` (`main_debug.py` lines 156-188) for
one capture result `pulses` (what `read_pulses` returned this cycle).
Returns the updated state and the Python return value (`None`, the learned
button, the recognized button, or `"UNKNOWN"`).  `trigger_output` only
drives a pin and is omitted. -/
def process_ir_signal (st : IRState) (pulses : List Nat) :
    IRState × Option String :=
  if pulses.isEmpty then (st, none)
  else
    match IRRemoteDecoder.decode_nec pulses with
    | none => (st, none)
    | some code =>
      let key := toTuple code
      if st.learning_mode then
        ({ st with
            button_codes := bindCode st.button_codes key st.learning_button
            learning_mode := false },
          some st.learning_button)
      else
        match lookup st.button_codes key with
        | some name => (st, some name)
        | none => (st, some "UNKNOWN")

/-- The waiting loop of `learn_button` (`main_debug.py` lines 144-147):
`while self.learning_mode and ticks_diff(...) < 10000: process_ir_signal()`.
The 10-second deadline is modelled by the finite list of capture results
available before it expires; the loop re-checks `learning_mode` before every
iteration. -/
def learnLoop (st : IRState) : List (List Nat) → IRState
  | [] => st
  | p :: rest =>
    if st.learning_mode then learnLoop (process_ir_signal st p).1 rest
    else st

/-- The arming prefix of `learn_button` (`main_debug.py` lines 131-141):
rejects a target name that is not a key of `self.outputs` (returns `False`
without touching any state); otherwise sets `learning_mode = True` and
`learning_button = name`, entering the listening state. -/
def armLearn (st : IRState) (name : String) : Option IRState :=
  if name ∈ st.outputs then
    some { st with learning_mode := true, learning_button := name }
  else none

/-- `IRRemoteDecoder.learn_button` (`main_debug.py` lines 131-154): reject
an unknown target name (returning `False` with no state change), otherwise
arm (`learning_mode = True`, `learning_button = name`), run the waiting loop
over the capture results available before the deadline, and, if the loop
ended with `learning_mode` still set (timeout), clear it and report failure;
otherwise report success. -/
def learn_button (st : IRState) (name : String)
    (inputs : List (List Nat)) : IRState × Bool :=
  if name ∈ st.outputs then
    let fin := learnLoop
      { st with learning_mode := true, learning_button := name } inputs
    if fin.learning_mode then ({ fin with learning_mode := false }, false)
    else (fin, true)
  else (st, false)

/-- Phase 1 of `read_pulses` (`main.py` lines 31-34): poll until the line
reads low, returning `some none` when the idle timeout fires (Python
`return []`) and `some (some t)` when the line is low at poll `t`.  The
environment is the level `line n` the pin shows at the n-th poll and the
millisecond clock reading `ms n` at the n-th poll; `ticks_diff` on a
monotone clock is `Nat` subtraction.  `none` means the fuel ran out
(used to state termination). -/
def waitLow (line : Nat → Bool) (ms : Nat → Nat) (start timeout : Nat) :
    Nat → Nat → Option (Option Nat)
  | 0, _ => none
  | fuel + 1, t =>
    if line t then
      if ms t - start > timeout then some none
      else waitLow line ms start timeout fuel (t + 1)
    else some (some t)

/-- The inner level-change wait of `read_pulses` (`main.py` lines 40-43):
poll until the line differs from `level`, returning `some none` on the
10000 µs per-pulse timeout (Python `return pulses`) and
`some (some (duration, t))` when the change is seen at poll `t`. -/
def waitChange (line : Nat → Bool) (us : Nat → Nat) (level : Bool)
    (t0 : Nat) : Nat → Nat → Option (Option (Nat × Nat))
  | 0, _ => none
  | fuel + 1, t =>
    if line t = level then
      if us t - t0 > 10000 then some none
      else waitChange line us level t0 fuel (t + 1)
    else some (some (us t - t0, t))

/-- The capture loop of `read_pulses` (`main.py` lines 37-44):
`for _ in range(100)`, each iteration sampling `t0` and the current level
and waiting for a change; a per-pulse timeout returns the pulses collected
so far. -/
def captureLoop (line : Nat → Bool) (us : Nat → Nat) :
    Nat → Nat → Nat → List Nat → Option (List Nat)
  | 0, _, _, acc => some acc
  | count + 1, fuel, t, acc =>
    match waitChange line us (line t) (us t) fuel (t + 1) with
    | none => none
    | some none => some acc
    | some (some (dur, tc)) =>
      captureLoop line us count fuel (tc + 1) (acc ++ [dur])

/-- `read_pulses` from `main.py` lines 27-46 (identical to
`IRRemoteDecoder.read_pulses`, `main_debug.py` lines 44-67): record the
start time at poll 0, wait for a low level, then capture up to 100 pulse
durations.  `fuel` bounds the busy-wait loops; the termination theorem
shows a fuel bound derived from the timeouts always suffices when the
clocks advance. -/
def read_pulses (line : Nat → Bool) (ms us : Nat → Nat)
    (timeout_ms fuel : Nat) : Option (List Nat) :=
  match waitLow line ms (ms 0) timeout_ms fuel 1 with
  | none => none
  | some none => some []
  | some (some t) => captureLoop line us 100 fuel (t + 1) []

/-- A concrete NEC frame for witnesses: the 9000/4500 header followed by a
560 µs mark and a 550 µs (bit 0) or 1650 µs (bit 1) space per data bit. -/
def mkPulses (bits : List Nat) : List Nat :=
  9000 :: 4500 :: bits.foldr
    (fun b acc => 560 :: (if b = 1 then 1650 else 550) :: acc) []

/-- Oring a low bit into a shifted even number is addition. -/
theorem two_mul_or_one (x : Nat) : 2 * x ||| 1 = 2 * x + 1 := by
  apply Nat.eq_of_testBit_eq
  intro i
  cases i with
  | zero =>
    have h1 : 2 * x % 2 = 0 := by omega
    have h2 : (2 * x + 1) % 2 = 1 := by omega
    simp [Nat.testBit_or, Nat.testBit_zero, h1, h2]
  | succ i =>
    have h1 : 2 * x / 2 = x := by omega
    have h2 : (2 * x + 1) / 2 = x := by omega
    have h3 : (1 : Nat) / 2 = 0 := by norm_num
    rw [Nat.testBit_or, Nat.testBit_add_one, Nat.testBit_add_one,
        Nat.testBit_add_one, h1, h2, h3]
    simp [Nat.zero_testBit]

/-- The accumulation step `(byte << 1) | b` of `decode_nec` is `2 * byte + b`
when `b` is a bit. -/
theorem shiftLeft_or_bit (x b : Nat) (hb : b ≤ 1) :
    (x <<< 1) ||| b = 2 * x + b := by
  rw [Nat.shiftLeft_eq, pow_one, Nat.mul_comm]
  interval_cases b
  · simp
  · exact two_mul_or_one x

/-- The shift-or fold equals the plain arithmetic fold on bit lists. -/
theorem packFold_eq_arith (l : List Nat) (hl : ∀ b ∈ l, b ≤ 1) (acc : Nat) :
    l.foldl (fun byte b => (byte <<< 1) ||| b) acc
      = l.foldl (fun byte b => 2 * byte + b) acc := by
  induction l generalizing acc with
  | nil => rfl
  | cons b t ih =>
    simp only [List.foldl_cons]
    rw [shiftLeft_or_bit _ _ (hl b (by simp))]
    exact ih (fun x hx => hl x (by simp [hx])) _

/-- The arithmetic fold computes the most-significant-bit-first value. -/
theorem foldl_arith_eq_msbVal (l : List Nat) (acc : Nat) :
    l.foldl (fun byte b => 2 * byte + b) acc
      = acc * 2 ^ l.length + msbVal l := by
  induction l generalizing acc with
  | nil => simp [msbVal]
  | cons b t ih =>
    simp only [List.foldl_cons, msbVal, List.length_cons]
    rw [ih]
    ring

/-- On a list of bits, `packByte` is exactly MSB-first packing. -/
theorem packByte_eq_msbVal (l : List Nat) (hl : ∀ b ∈ l, b ≤ 1) :
    packByte l = msbVal l := by
  unfold packByte
  rw [packFold_eq_arith l hl 0, foldl_arith_eq_msbVal]
  simp

/-- MSB-first packing of a bit list is bounded by the corresponding power. -/
theorem msbVal_lt (l : List Nat) (hl : ∀ b ∈ l, b ≤ 1) :
    msbVal l < 2 ^ l.length := by
  induction l with
  | nil => simp [msbVal]
  | cons b t ih =>
    have hb := hl b (by simp)
    have ht := ih (fun x hx => hl x (by simp [hx]))
    have hmul : b * 2 ^ t.length ≤ 2 ^ t.length := by
      calc b * 2 ^ t.length ≤ 1 * 2 ^ t.length :=
            Nat.mul_le_mul_right _ hb
        _ = 2 ^ t.length := one_mul _
    simp only [msbVal, List.length_cons, pow_succ]
    linarith

/-- C2: for every pulse sequence whose length is strictly less than 66,
`decode_nec` returns `none`, regardless of the values of the entries. -/
theorem C2_short_sequence_rejected (pulses : List Nat)
    (h : pulses.length < 66) : decode_nec pulses = none := by
  unfold decode_nec
  simp [h]

/-- Witness for C2 at the concrete input `[]`. -/
theorem C2_short_sequence_rejected_witness :
    ([] : List Nat).length < 66 ∧ decode_nec [] = none :=
  ⟨by decide, C2_short_sequence_rejected [] (by decide)⟩

/-- The classification of every examined space succeeds and produces the
given bit pattern. -/
theorem necBits_eq_of_classified (p : List Nat) (bit : Nat → Nat)
    (hbit : ∀ k < 32, classifyBit (p.getD (2 + 2 * k + 1) 0) = some (bit k)) :
    necBits p = (List.range 32).map (fun k => some (bit k)) := by
  unfold necBits bitIndices
  rw [List.map_map]
  apply List.map_congr_left
  intro k hk
  simp only [Function.comp]
  exact hbit k (List.mem_range.mp hk)

/-- C1: for every pulse sequence of length at least 66 with a valid header
and whose 32 spaces at positions 3, 5, ..., 65 each classify to the bit
given by `bit`, `decode_nec` returns the 4 bytes obtained by packing the 32
bits most-significant-bit-first, in sequence order. -/
theorem C1_decode_packs_msb_first (p : List Nat) (bit : Nat → Nat)
    (hlen : 66 ≤ p.length)
    (h0 : 8500 < p.getD 0 0 ∧ p.getD 0 0 < 9500)
    (h1 : 4000 < p.getD 1 0 ∧ p.getD 1 0 < 5000)
    (hbit : ∀ k < 32,
      (bit k = 0 ∧ 400 < p.getD (2 + 2 * k + 1) 0 ∧
        p.getD (2 + 2 * k + 1) 0 < 700) ∨
      (bit k = 1 ∧ 1500 < p.getD (2 + 2 * k + 1) 0 ∧
        p.getD (2 + 2 * k + 1) 0 < 1800)) :
    decode_nec p =
      some ((List.range 4).map (fun j =>
        msbVal ((List.range 8).map (fun m => bit (8 * j + m))))) := by
  have hcls : ∀ k < 32,
      classifyBit (p.getD (2 + 2 * k + 1) 0) = some (bit k) := by
    intro k hk
    rcases hbit k hk with ⟨hb, hlo, hhi⟩ | ⟨hb, hlo, hhi⟩
    · unfold classifyBit
      rw [if_pos ⟨hlo, hhi⟩, hb]
    · unfold classifyBit
      rw [if_neg (by omega), if_pos ⟨hlo, hhi⟩, hb]
  have hbits := necBits_eq_of_classified p bit hcls
  have hble : ∀ k < 32, bit k ≤ 1 := by
    intro k hk
    rcases hbit k hk with ⟨hb, _⟩ | ⟨hb, _⟩ <;> omega
  unfold decode_nec
  rw [if_neg (by omega),
      if_neg (not_not_intro ⟨h0.1, h0.2, h1.1, h1.2⟩),
      if_neg (by rw [hbits]; simp)]
  have hget : (necBits p).map (fun b => b.getD 0) = (List.range 32).map bit := by
    rw [hbits, List.map_map]
    rfl
  rw [hget]
  congr 1
  have s0 : (((List.range 32).map bit).drop 0).take 8
      = (List.range 8).map (fun m => bit (8 * 0 + m)) := by rfl
  have s1 : (((List.range 32).map bit).drop 8).take 8
      = (List.range 8).map (fun m => bit (8 * 1 + m)) := by rfl
  have s2 : (((List.range 32).map bit).drop 16).take 8
      = (List.range 8).map (fun m => bit (8 * 2 + m)) := by rfl
  have s3 : (((List.range 32).map bit).drop 24).take 8
      = (List.range 8).map (fun m => bit (8 * 3 + m)) := by rfl
  have hsub : ∀ j, j < 4 → ∀ b ∈ (List.range 8).map (fun m => bit (8 * j + m)), b ≤ 1 := by
    intro j hj b hbm
    rcases List.mem_map.mp hbm with ⟨m, hm, rfl⟩
    exact hble _ (by have := List.mem_range.mp hm; omega)
  show packCode ((List.range 32).map bit) = _
  unfold packCode
  simp only [List.map_cons, List.map_nil]
  rw [s0, s1, s2, s3,
      packByte_eq_msbVal _ (hsub 0 (by omega)),
      packByte_eq_msbVal _ (hsub 1 (by omega)),
      packByte_eq_msbVal _ (hsub 2 (by omega)),
      packByte_eq_msbVal _ (hsub 3 (by omega))]
  rfl

/-- Witness for C1: the header (9000, 4500) followed by spaces encoding the
bit pattern 01100001 11010110 01001000 10110111 decodes to
(0x61, 0xD6, 0x48, 0xB7). -/
theorem C1_decode_packs_msb_first_witness :
    decode_nec (mkPulses [0,1,1,0,0,0,0,1, 1,1,0,1,0,1,1,0,
                          0,1,0,0,1,0,0,0, 1,0,1,1,0,1,1,1])
      = some [0x61, 0xD6, 0x48, 0xB7] := by
  have h := C1_decode_packs_msb_first
    (mkPulses [0,1,1,0,0,0,0,1, 1,1,0,1,0,1,1,0,
               0,1,0,0,1,0,0,0, 1,0,1,1,0,1,1,1])
    (fun k => [0,1,1,0,0,0,0,1, 1,1,0,1,0,1,1,0,
               0,1,0,0,1,0,0,0, 1,0,1,1,0,1,1,1].getD k 0)
    (by decide) (by decide) (by decide) (by decide)
  rw [h]
  decide

/-- C3: the classification windows are exclusive at their boundaries.  For
any sequence of length at least 66, a header space of exactly 4000 or 5000
makes `decode_nec` return `none`, and a data-bit space of exactly 700 or
1500 at any of the positions 3, 5, ..., 65 makes the whole decode return
`none`. -/
theorem C3_boundaries_exclusive (p : List Nat) (hlen : 66 ≤ p.length) :
    ((p.getD 1 0 = 4000 ∨ p.getD 1 0 = 5000) → decode_nec p = none) ∧
    (∀ k < 32,
      (p.getD (2 + 2 * k + 1) 0 = 700 ∨ p.getD (2 + 2 * k + 1) 0 = 1500) →
      decode_nec p = none) := by
  constructor
  · intro hdr
    unfold decode_nec
    rw [if_neg (by omega), if_pos (by omega)]
  · intro k hk hval
    unfold decode_nec
    rw [if_neg (by omega)]
    by_cases hc : ¬(8500 < p.getD 0 0 ∧ p.getD 0 0 < 9500 ∧
                    4000 < p.getD 1 0 ∧ p.getD 1 0 < 5000)
    · rw [if_pos hc]
    · rw [if_neg hc, if_pos ?mem]
      case mem =>
        unfold necBits bitIndices
        rw [List.map_map]
        refine List.mem_map.mpr ⟨k, List.mem_range.mpr hk, ?_⟩
        simp only [Function.comp]
        rcases hval with h | h <;> rw [h] <;> decide

/-- Witness for C3: a 66-entry sequence whose header space is exactly 4000
is rejected. -/
theorem C3_boundaries_exclusive_witness :
    decode_nec (List.replicate 66 4000) = none :=
  (C3_boundaries_exclusive (List.replicate 66 4000) (by decide)).1
    (Or.inl (by decide))

/-- When every examined index is in range, the debug bit loop never takes
its early `break` and agrees with collecting all classifications and
checking for a marker afterwards. -/
theorem collectBits_eq_of_inBounds (p : List Nat) (ks : List Nat)
    (h : ∀ i ∈ ks, i + 1 < p.length) :
    IRRemoteDecoder.collectBits p ks =
      if none ∈ ks.map (fun i => classifyBit (p.getD (i + 1) 0)) then none
      else some ((ks.map (fun i => classifyBit (p.getD (i + 1) 0))).map
        (fun b => b.getD 0)) := by
  induction ks with
  | nil => simp [IRRemoteDecoder.collectBits]
  | cons i rest ih =>
    have hi := h i (by simp)
    rw [IRRemoteDecoder.collectBits, if_neg (by omega),
        ih (fun j hj => h j (by simp [hj])), List.map_cons]
    cases hcl : classifyBit (p.getD (i + 1) 0) with
    | none =>
      rw [if_pos (List.mem_cons_self _ _)]
    | some b =>
      by_cases hmem : none ∈ rest.map (fun i => classifyBit (p.getD (i + 1) 0))
      · rw [if_pos hmem, if_pos (List.mem_cons_of_mem _ hmem)]
        rfl
      · have hn : (none : Option Nat) ∉
            some b :: rest.map (fun i => classifyBit (p.getD (i + 1) 0)) := by
          intro hcon
          rcases List.mem_cons.mp hcon with h1 | h1
          · exact Option.noConfusion h1
          · exact hmem h1
        rw [if_neg hmem, if_neg hn, List.map_cons]
        rfl

/-- Every data-bit index walked by the decoders is in range for a sequence
of length at least 66. -/
theorem bitIndices_inBounds (p : List Nat) (hlen : 66 ≤ p.length) :
    ∀ i ∈ bitIndices, i + 1 < p.length := by
  intro i hi
  rcases List.mem_map.mp hi with ⟨k, hk, rfl⟩
  have := List.mem_range.mp hk
  omega

/-- C9: the two decoder implementations are extensionally equal; the extra
early break and bit-count check of the debug version never change the
outcome given the length guard. -/
theorem C9_decoders_agree (p : List Nat) :
    decode_nec p = IRRemoteDecoder.decode_nec p := by
  unfold decode_nec IRRemoteDecoder.decode_nec
  by_cases hlen : p.length < 66
  · rw [if_pos hlen, if_pos hlen]
  rw [if_neg hlen, if_neg hlen]
  by_cases hdr : ¬(8500 < p.getD 0 0 ∧ p.getD 0 0 < 9500 ∧
                   4000 < p.getD 1 0 ∧ p.getD 1 0 < 5000)
  · rw [if_pos hdr, if_pos hdr]
  rw [if_neg hdr, if_neg hdr,
      collectBits_eq_of_inBounds p bitIndices (bitIndices_inBounds p (by omega))]
  unfold necBits
  by_cases hmem : none ∈ bitIndices.map (fun i => classifyBit (p.getD (i + 1) 0))
  · rw [if_pos hmem, if_pos hmem]
  · rw [if_neg hmem, if_neg hmem]
    have hlen32 : ((bitIndices.map (fun i => classifyBit (p.getD (i + 1) 0))).map
        (fun b => b.getD 0)).length = 32 := by
      simp [bitIndices]
    exact (if_neg (by omega)).symm

/-- Every classification yields a bit value at most 1 (the marker defaults
to 0 under `getD`). -/
theorem classifyBit_getD_le (x : Nat) : (classifyBit x).getD 0 ≤ 1 := by
  unfold classifyBit
  split
  · simp
  split
  · simp
  · simp

/-- C10: the decode result depends only on the first 66 entries, and any
returned code consists of exactly 4 bytes each below 256. -/
theorem C10_locality_and_byte_range (p q : List Nat) :
    (66 ≤ p.length → 66 ≤ q.length → (∀ i < 66, p.getD i 0 = q.getD i 0) →
      decode_nec p = decode_nec q) ∧
    (∀ code, decode_nec p = some code →
      code.length = 4 ∧ ∀ b ∈ code, b < 256) := by
  constructor
  · intro hp hq hagree
    have hbits : necBits p = necBits q := by
      unfold necBits
      apply List.map_congr_left
      intro i hi
      rcases List.mem_map.mp hi with ⟨k, hk, rfl⟩
      have := List.mem_range.mp hk
      rw [hagree (2 + 2 * k + 1) (by omega)]
    unfold decode_nec
    rw [if_neg (show ¬p.length < 66 by omega),
        if_neg (show ¬q.length < 66 by omega),
        ← hagree 0 (by omega), ← hagree 1 (by omega), ← hbits]
  · intro code h
    have hle : ∀ b ∈ (necBits p).map (fun b => b.getD 0), b ≤ 1 := by
      intro b hb
      rcases List.mem_map.mp hb with ⟨ob, hob, rfl⟩
      rcases List.mem_map.mp hob with ⟨i, hi, rfl⟩
      exact classifyBit_getD_le _
    have hcode : code = packCode ((necBits p).map (fun b => b.getD 0)) := by
      unfold decode_nec at h
      split at h
      · exact Option.noConfusion h
      split at h
      · exact Option.noConfusion h
      split at h
      · exact Option.noConfusion h
      · exact (Option.some.injEq _ _ ▸ h).symm
    subst hcode
    constructor
    · rfl
    · intro b hb
      rcases List.mem_map.mp hb with ⟨i, hi, rfl⟩
      have hsub : ∀ x ∈ (((necBits p).map (fun b => b.getD 0)).drop i).take 8,
          x ≤ 1 := fun x hx =>
        hle x (List.drop_subset _ _ (List.take_subset _ _ hx))
      rw [packByte_eq_msbVal _ hsub]
      have hlt := msbVal_lt _ hsub
      have hlen8 : ((((necBits p).map (fun b => b.getD 0)).drop i).take 8).length ≤ 8 := by
        simp [List.length_take]
      calc msbVal ((((necBits p).map (fun b => b.getD 0)).drop i).take 8)
          < 2 ^ ((((necBits p).map (fun b => b.getD 0)).drop i).take 8).length := hlt
        _ ≤ 2 ^ 8 := Nat.pow_le_pow_right (by norm_num) hlen8
        _ = 256 := by norm_num

/-- Witness for C10 at a concrete decodable frame. -/
theorem C10_locality_and_byte_range_witness :
    decode_nec (List.replicate 66 0) = decode_nec (List.replicate 66 0) ∧
    ([0x61, 0xD6, 0x48, 0xB7].length = 4 ∧
      ∀ b ∈ [0x61, 0xD6, 0x48, 0xB7], b < 256) :=
  ⟨(C10_locality_and_byte_range (List.replicate 66 0)
      (List.replicate 66 0)).1 (by decide) (by decide) (fun i _ => rfl),
    (C10_locality_and_byte_range
      (mkPulses [0,1,1,0,0,0,0,1, 1,1,0,1,0,1,1,0,
                 0,1,0,0,1,0,0,0, 1,0,1,1,0,1,1,1])
      []).2 [0x61, 0xD6, 0x48, 0xB7] (by decide)⟩

/-- Overwriting the value stored at key `c` rewrites exactly the entry that
a search for `c` finds. -/
theorem find?_overwrite (t : CodeTable) (c : Code) (n : String) :
    (t.map (fun p => if p.1 = c then (p.1, n) else p)).find?
        (fun p => decide (p.1 = c))
      = (t.find? (fun p => decide (p.1 = c))).map (fun p => (p.1, n)) := by
  induction t with
  | nil => rfl
  | cons hd tl ih =>
    by_cases h : hd.1 = c
    · simp [h]
    · simp [h, ih]

/-- A search for a different key is unaffected by overwriting key `c`. -/
theorem find?_overwrite_ne (t : CodeTable) (c c' : Code) (n : String)
    (h : c' ≠ c) :
    (t.map (fun p => if p.1 = c then (p.1, n) else p)).find?
        (fun p => decide (p.1 = c'))
      = t.find? (fun p => decide (p.1 = c')) := by
  induction t with
  | nil => rfl
  | cons hd tl ih =>
    simp only [List.map_cons]
    by_cases hc : hd.1 = c
    · have h2 : ¬ hd.1 = c' := by
        rw [hc]
        exact fun hh => h hh.symm
      have h1 : ¬ (if hd.1 = c then (hd.1, n) else hd).1 = c' := by
        rw [if_pos hc]
        exact h2
      rw [List.find?_cons_of_neg _ (by simpa using h1),
          List.find?_cons_of_neg _ (by simpa using h2), ih]
    · have h1 : (if hd.1 = c then (hd.1, n) else hd) = hd := if_neg hc
      rw [h1]
      by_cases hc' : hd.1 = c'
      · rw [List.find?_cons_of_pos _ (by simpa using hc'),
            List.find?_cons_of_pos _ (by simpa using hc')]
      · rw [List.find?_cons_of_neg _ (by simpa using hc'),
            List.find?_cons_of_neg _ (by simpa using hc'), ih]

/-- After `bindCode t c n`, looking up `c` yields `n`. -/
theorem lookup_bindCode_self (t : CodeTable) (c : Code) (n : String) :
    lookup (bindCode t c n) c = some n := by
  unfold lookup bindCode
  by_cases hmem : t.any (fun p => decide (p.1 = c)) = true
  · rw [if_pos hmem, find?_overwrite]
    rcases List.any_eq_true.mp hmem with ⟨x, hx, hpx⟩
    have hsome : (t.find? (fun p => decide (p.1 = c))).isSome := by
      rw [List.find?_isSome]
      exact ⟨x, hx, hpx⟩
    rcases Option.isSome_iff_exists.mp hsome with ⟨y, hy⟩
    rw [hy]
    rfl
  · rw [if_neg hmem]
    have hnone : t.find? (fun p => decide (p.1 = c)) = none := by
      rw [List.find?_eq_none]
      intro x hx hpx
      exact hmem (List.any_eq_true.mpr ⟨x, hx, hpx⟩)
    rw [List.find?_append, hnone]
    simp

/-- After `bindCode t c n`, looking up any other key is unchanged. -/
theorem lookup_bindCode_other (t : CodeTable) (c c' : Code) (n : String)
    (h : c' ≠ c) : lookup (bindCode t c n) c' = lookup t c' := by
  unfold lookup bindCode
  by_cases hmem : t.any (fun p => decide (p.1 = c)) = true
  · rw [if_pos hmem, find?_overwrite_ne t c c' n h]
  · rw [if_neg hmem, List.find?_append]
    have hni : ¬ c = c' := fun hh => h hh.symm
    have hfn : ([(c, n)].find? (fun p => decide (p.1 = c'))) = none := by
      simp [hni]
    rw [hfn]
    simp

/-- Counterexample to C6 as stated: with the pre-seeded table, after binding
a fresh code to UP, a lookup of the POWER code (which differs from the bound
code in every byte) returns POWER, not `none`. -/
theorem C6_counterexample :
    lookup (bindCode defaultCodes (0x11, 0x22, 0x33, 0x44) "UP")
        (0x61, 0xD6, 0x48, 0xB7) = some "POWER" ∧
    ((0x61, 0xD6, 0x48, 0xB7) : Code) ≠ (0x11, 0x22, 0x33, 0x44) ∧
    lookup (bindCode defaultCodes (0x11, 0x22, 0x33, 0x44) "UP")
        (0x61, 0xD6, 0x48, 0xB7) ≠ none := by
  refine ⟨by decide, by decide, ?_⟩
  intro h
  rw [show lookup (bindCode defaultCodes (0x11, 0x22, 0x33, 0x44) "UP")
      (0x61, 0xD6, 0x48, 0xB7) = some "POWER" from by decide] at h
  exact Option.noConfusion h

/-- C6 amended: after `bind(code, UP)` a lookup of that exact code returns
`some UP`, and a lookup of any code differing from it returns whatever the
table returned for it before the bind (in particular `none` exactly when
that code was previously unbound). -/
theorem C6_bind_lookup (t : CodeTable) (c c' : Code) :
    lookup (bindCode t c "UP") c = some "UP" ∧
    (c' ≠ c → lookup (bindCode t c "UP") c' = lookup t c') :=
  ⟨lookup_bindCode_self t c "UP",
    fun h => lookup_bindCode_other t c c' "UP" h⟩

/-- Witness for the amended C6 on the empty table. -/
theorem C6_bind_lookup_witness :
    lookup (bindCode [] (1, 2, 3, 4) "UP") (1, 2, 3, 4) = some "UP" ∧
    lookup (bindCode [] (1, 2, 3, 4) "UP") (9, 2, 3, 4) = none := by
  refine ⟨(C6_bind_lookup [] (1, 2, 3, 4) (9, 2, 3, 4)).1, ?_⟩
  rw [(C6_bind_lookup [] (1, 2, 3, 4) (9, 2, 3, 4)).2 (by decide)]
  rfl

/-- A cycle whose capture does not decode leaves the state untouched. -/
theorem process_ir_signal_none (s : IRState) (q : List Nat)
    (h : IRRemoteDecoder.decode_nec q = none) :
    process_ir_signal s q = (s, none) := by
  unfold process_ir_signal
  by_cases hq : q.isEmpty
  · rw [if_pos hq]
  · rw [if_neg hq, h]

/-- Unfolding equation for one iteration of the learning wait loop. -/
theorem learnLoop_cons (s : IRState) (p : List Nat) (rest : List (List Nat)) :
    learnLoop s (p :: rest) =
      if s.learning_mode then learnLoop (process_ir_signal s p).1 rest
      else s := rfl

/-- Once learning mode is off, the wait loop stops immediately. -/
theorem learnLoop_of_not_learning (s : IRState) (l : List (List Nat))
    (h : s.learning_mode = false) : learnLoop s l = s := by
  cases l with
  | nil => rfl
  | cons p rest =>
    rw [learnLoop_cons, if_neg (by rw [h]; exact Bool.false_ne_true)]

/-- A prefix of capture results that never decodes does not affect the wait
loop. -/
theorem learnLoop_none_prefix (pre : List (List Nat)) (s : IRState)
    (l : List (List Nat))
    (h : ∀ q ∈ pre, IRRemoteDecoder.decode_nec q = none) :
    learnLoop s (pre ++ l) = learnLoop s l := by
  revert h
  induction pre with
  | nil => intro h; rfl
  | cons q rest ih =>
    intro h
    rw [List.cons_append, learnLoop_cons]
    by_cases hs : s.learning_mode = true
    · rw [if_pos hs, process_ir_signal_none s q (h q (List.mem_cons_self _ _))]
      exact ih (fun x hx => h x (List.mem_cons_of_mem _ hx))
    · rw [if_neg hs]
      have hfalse : s.learning_mode = false := by
        revert hs
        cases s.learning_mode <;> simp
      rw [learnLoop_of_not_learning s l hfalse]

/-- C5: if the learning controller is armed for a valid target and no input
before the deadline decodes, `learn_button` reports failure and returns to
idle with the code table exactly unchanged (only the mode flag and the
remembered target name differ). -/
theorem C5_timeout_leaves_table (st : IRState) (name : String)
    (inputs : List (List Nat)) (hname : name ∈ st.outputs)
    (hfail : ∀ p ∈ inputs, IRRemoteDecoder.decode_nec p = none) :
    learn_button st name inputs
      = ({ st with learning_mode := false, learning_button := name },
          false) := by
  unfold learn_button
  rw [if_pos hname]
  have hloop : learnLoop
      { st with learning_mode := true, learning_button := name } inputs
      = { st with learning_mode := true, learning_button := name } := by
    have h2 := learnLoop_none_prefix inputs
      { st with learning_mode := true, learning_button := name } [] hfail
    rw [List.append_nil] at h2
    rw [h2]
    rfl
  simp only [hloop]
  rfl

/-- Witness for C5: arming UP on the initial state with one undecodable
capture reports failure and leaves the default table in place. -/
theorem C5_timeout_leaves_table_witness :
    learn_button initState "UP" [[]]
      = ({ initState with learning_mode := false, learning_button := "UP" },
          false) :=
  C5_timeout_leaves_table initState "UP" [[]] (by decide) (by decide)

/-- C4: if the learning controller is armed for a valid target and some
capture before the deadline decodes (after a prefix of undecodable ones),
`learn_button` reports success, leaves the listening state, binds the
decoded code to the target, changes no other key of the table, and keeps
every code previously bound to the target bound to it. -/
theorem C4_learning_binds (st : IRState) (name : String)
    (pre : List (List Nat)) (p : List Nat) (rest : List (List Nat))
    (code : List Nat) (hname : name ∈ st.outputs)
    (hpre : ∀ q ∈ pre, IRRemoteDecoder.decode_nec q = none)
    (hp : IRRemoteDecoder.decode_nec p = some code) :
    (learn_button st name (pre ++ p :: rest)).2 = true ∧
    (learn_button st name (pre ++ p :: rest)).1.learning_mode = false ∧
    lookup (learn_button st name (pre ++ p :: rest)).1.button_codes
        (toTuple code) = some name ∧
    (∀ c', c' ≠ toTuple code →
      lookup (learn_button st name (pre ++ p :: rest)).1.button_codes c'
        = lookup st.button_codes c') ∧
    (∀ c₀, lookup st.button_codes c₀ = some name →
      lookup (learn_button st name (pre ++ p :: rest)).1.button_codes c₀
        = some name) := by
  have hpne : p.isEmpty = false := by
    cases p with
    | nil => simp [IRRemoteDecoder.decode_nec] at hp
    | cons a l => rfl
  have hstep : process_ir_signal
        { st with learning_mode := true, learning_button := name } p
      = ({ st with
            button_codes := bindCode st.button_codes (toTuple code) name,
            learning_mode := false, learning_button := name },
          some name) := by
    unfold process_ir_signal
    rw [if_neg (by rw [hpne]; exact Bool.false_ne_true), hp]
    rfl
  have hpref := learnLoop_none_prefix pre
    { st with learning_mode := true, learning_button := name }
    (p :: rest) hpre
  have hfinal : learnLoop
      { st with learning_mode := true, learning_button := name } (p :: rest)
      = { st with
            button_codes := bindCode st.button_codes (toTuple code) name,
            learning_mode := false, learning_button := name } := by
    rw [learnLoop_cons, if_pos rfl, hstep]
    exact learnLoop_of_not_learning _ _ rfl
  have hlb : learn_button st name (pre ++ p :: rest)
      = ({ st with
            button_codes := bindCode st.button_codes (toTuple code) name,
            learning_mode := false, learning_button := name },
          true) := by
    unfold learn_button
    rw [if_pos hname]
    simp only [hpref, hfinal]
    rfl
  refine ⟨by rw [hlb], by rw [hlb], ?_, ?_, ?_⟩
  · rw [hlb]
    exact lookup_bindCode_self st.button_codes (toTuple code) name
  · intro c' hc'
    rw [hlb]
    exact lookup_bindCode_other st.button_codes (toTuple code) c' name hc'
  · intro c₀ h₀
    rw [hlb]
    show lookup (bindCode st.button_codes (toTuple code) name) c₀ = some name
    by_cases hcc : c₀ = toTuple code
    · rw [hcc]
      exact lookup_bindCode_self st.button_codes (toTuple code) name
    · rw [lookup_bindCode_other st.button_codes (toTuple code) c₀ name hcc]
      exact h₀

/-- Witness for C4: learning UP on the initial state, with one empty capture
followed by a frame decoding to (0x11, 0x22, 0x33, 0x44), succeeds, binds
the new code to UP, and keeps the old UP code (0x61, 0xD6, 0xD8, 0x27)
bound. -/
theorem C4_learning_binds_witness :
    (learn_button initState "UP"
      ([[]] ++ mkPulses [0,0,0,1,0,0,0,1, 0,0,1,0,0,0,1,0,
                         0,0,1,1,0,0,1,1, 0,1,0,0,0,1,0,0] :: [])).2
        = true ∧
    lookup (learn_button initState "UP"
      ([[]] ++ mkPulses [0,0,0,1,0,0,0,1, 0,0,1,0,0,0,1,0,
                         0,0,1,1,0,0,1,1, 0,1,0,0,0,1,0,0] :: [])).1.button_codes
      (0x11, 0x22, 0x33, 0x44) = some "UP" ∧
    lookup (learn_button initState "UP"
      ([[]] ++ mkPulses [0,0,0,1,0,0,0,1, 0,0,1,0,0,0,1,0,
                         0,0,1,1,0,0,1,1, 0,1,0,0,0,1,0,0] :: [])).1.button_codes
      (0x61, 0xD6, 0xD8, 0x27) = some "UP" := by
  have h := C4_learning_binds initState "UP" [[]]
    (mkPulses [0,0,0,1,0,0,0,1, 0,0,1,0,0,0,1,0,
               0,0,1,1,0,0,1,1, 0,1,0,0,0,1,0,0]) []
    [0x11, 0x22, 0x33, 0x44] (by decide) (by decide) (by decide)
  exact ⟨h.1, h.2.2.1, h.2.2.2.2 (0x61, 0xD6, 0xD8, 0x27) (by decide)⟩

/-- C7: arming learning for a name outside the known output set fails and
does not enter the listening state (no state change at all), while arming
for a known name enters the listening state with the target recorded. -/
theorem C7_arm_validation (st : IRState) (name : String)
    (inputs : List (List Nat)) :
    (name ∉ st.outputs →
      armLearn st name = none ∧ learn_button st name inputs = (st, false)) ∧
    (name ∈ st.outputs →
      armLearn st name
        = some { st with learning_mode := true, learning_button := name } ∧
      ({ st with
          learning_mode := true
          learning_button := name } : IRState).learning_mode = true) := by
  constructor
  · intro h
    constructor
    · unfold armLearn
      rw [if_neg h]
    · unfold learn_button
      rw [if_neg h]
  · intro h
    refine ⟨?_, rfl⟩
    unfold armLearn
    rw [if_pos h]

/-- Witness for C7: VOLUP is not a known output name and is rejected, while
UP is accepted and enters listening. -/
theorem C7_arm_validation_witness :
    (armLearn initState "VOLUP" = none ∧
      learn_button initState "VOLUP" [] = (initState, false)) ∧
    (armLearn initState "UP"
        = some { initState with
                  learning_mode := true
                  learning_button := "UP" } ∧
      ({ initState with
          learning_mode := true
          learning_button := "UP" } : IRState).learning_mode = true) :=
  ⟨(C7_arm_validation initState "VOLUP" []).1 (by decide),
    (C7_arm_validation initState "UP" []).2 (by decide)⟩

/-- A strictly monotone clock gains at least one tick per poll. -/
theorem strictMono_add_le (f : Nat → Nat) (hf : StrictMono f) (a d : Nat) :
    f a + d ≤ f (a + d) := by
  induction d with
  | zero => simp
  | succ d ih =>
    have h := hf (show a + d < a + (d + 1) by omega)
    omega

/-- Unfolding equation for the idle wait at positive fuel. -/
theorem waitLow_succ (line : Nat → Bool) (ms : Nat → Nat)
    (start timeout fuel t : Nat) :
    waitLow line ms start timeout (fuel + 1) t =
      if line t then
        if ms t - start > timeout then some none
        else waitLow line ms start timeout fuel (t + 1)
      else some (some t) := rfl

/-- Unfolding equation for the level-change wait at positive fuel. -/
theorem waitChange_succ (line : Nat → Bool) (us : Nat → Nat) (level : Bool)
    (t0 fuel t : Nat) :
    waitChange line us level t0 (fuel + 1) t =
      if line t = level then
        if us t - t0 > 10000 then some none
        else waitChange line us level t0 fuel (t + 1)
      else some (some (us t - t0, t)) := rfl

/-- Unfolding equation for the capture loop at positive count. -/
theorem captureLoop_succ (line : Nat → Bool) (us : Nat → Nat)
    (count fuel t : Nat) (acc : List Nat) :
    captureLoop line us (count + 1) fuel t acc =
      match waitChange line us (line t) (us t) fuel (t + 1) with
      | none => none
      | some none => some acc
      | some (some (dur, tc)) =>
        captureLoop line us count fuel (tc + 1) (acc ++ [dur]) := rfl

/-- With an advancing millisecond clock, the idle wait never exhausts a fuel
budget covering the idle timeout. -/
theorem waitLow_ne_none (line : Nat → Bool) (ms : Nat → Nat) (timeout : Nat)
    (hms : StrictMono ms) :
    ∀ fuel t, timeout + 2 ≤ fuel + t → t ≤ timeout + 1 →
      waitLow line ms (ms 0) timeout fuel t ≠ none := by
  intro fuel
  induction fuel with
  | zero =>
    intro t h1 h2
    exfalso
    omega
  | succ fuel ih =>
    intro t h1 h2
    rw [waitLow_succ]
    by_cases hl : line t = true
    · rw [if_pos hl]
      by_cases hd : ms t - ms 0 > timeout
      · rw [if_pos hd]
        simp
      · rw [if_neg hd]
        have hadv : ms 0 + t ≤ ms t := by
          have h := strictMono_add_le ms hms 0 t
          simpa using h
        exact ih (t + 1) (by omega) (by omega)
    · rw [if_neg hl]
      simp

/-- The idle wait only hands control to the capture phase at a poll where
the line is low. -/
theorem waitLow_low (line : Nat → Bool) (ms : Nat → Nat)
    (start timeout : Nat) :
    ∀ fuel t t', waitLow line ms start timeout fuel t = some (some t') →
      line t' = false := by
  intro fuel
  induction fuel with
  | zero =>
    intro t t' h
    exact Option.noConfusion h
  | succ fuel ih =>
    intro t t' h
    rw [waitLow_succ] at h
    by_cases hl : line t = true
    · rw [if_pos hl] at h
      by_cases hd : ms t - start > timeout
      · rw [if_pos hd] at h
        exact Option.noConfusion (Option.some.inj h)
      · rw [if_neg hd] at h
        exact ih (t + 1) t' h
    · rw [if_neg hl] at h
      have heq : t = t' := Option.some.inj (Option.some.inj h)
      rw [← heq]
      revert hl
      cases line t <;> simp

/-- With an advancing microsecond clock, the level-change wait never
exhausts a fuel budget covering the per-pulse timeout. -/
theorem waitChange_ne_none (line : Nat → Bool) (us : Nat → Nat)
    (hus : StrictMono us) (level : Bool) (tb : Nat) :
    ∀ fuel t, tb < t → 10002 ≤ fuel + (t - tb) → t - tb ≤ 10001 →
      waitChange line us level (us tb) fuel t ≠ none := by
  intro fuel
  induction fuel with
  | zero =>
    intro t h0 h1 h2
    exfalso
    omega
  | succ fuel ih =>
    intro t h0 h1 h2
    rw [waitChange_succ]
    by_cases hl : line t = level
    · rw [if_pos hl]
      by_cases hd : us t - us tb > 10000
      · rw [if_pos hd]
        simp
      · rw [if_neg hd]
        have hadv : us tb + (t - tb) ≤ us t := by
          have h := strictMono_add_le us hus tb (t - tb)
          have ht : tb + (t - tb) = t := by omega
          rw [ht] at h
          exact h
        exact ih (t + 1) (by omega) (by omega) (by omega)
    · rw [if_neg hl]
      simp

/-- The capture loop always returns a sequence when the per-pulse fuel
budget is adequate. -/
theorem captureLoop_ne_none (line : Nat → Bool) (us : Nat → Nat)
    (hus : StrictMono us) :
    ∀ count fuel t acc, 10001 ≤ fuel →
      captureLoop line us count fuel t acc ≠ none := by
  intro count
  induction count with
  | zero =>
    intro fuel t acc h
    simp [captureLoop]
  | succ count ih =>
    intro fuel t acc h
    rw [captureLoop_succ]
    cases hw : waitChange line us (line t) (us t) fuel (t + 1) with
    | none =>
      exact absurd hw
        (waitChange_ne_none line us hus (line t) t fuel (t + 1)
          (by omega) (by omega) (by omega))
    | some r =>
      cases r with
      | none =>
        intro hcon
        exact Option.noConfusion hcon
      | some dt =>
        obtain ⟨dur, tc⟩ := dt
        exact ih fuel (tc + 1) (acc ++ [dur]) h

/-- The capture loop appends at most `count` further durations. -/
theorem captureLoop_length (line : Nat → Bool) (us : Nat → Nat) :
    ∀ count fuel t acc ps, captureLoop line us count fuel t acc = some ps →
      ps.length ≤ acc.length + count := by
  intro count
  induction count with
  | zero =>
    intro fuel t acc ps h
    have heq : acc = ps := Option.some.inj h
    rw [← heq]
    omega
  | succ count ih =>
    intro fuel t acc ps h
    rw [captureLoop_succ] at h
    cases hw : waitChange line us (line t) (us t) fuel (t + 1) with
    | none =>
      rw [hw] at h
      exact Option.noConfusion h
    | some r =>
      rw [hw] at h
      cases r with
      | none =>
        have heq : acc = ps := Option.some.inj h
        rw [← heq]
        omega
      | some dt =>
        obtain ⟨dur, tc⟩ := dt
        have hrec := ih fuel (tc + 1) (acc ++ [dur]) ps h
        rw [List.length_append] at hrec
        simp at hrec
        omega

/-- C8: for every behaviour of the signal line and strictly advancing
clocks, `read_pulses` terminates within the fuel budget derived from the
timeouts, returns between 0 and 100 durations, and returns the empty
sequence when the line never goes low. -/
theorem C8_capture_terminates_bounded (line : Nat → Bool) (ms us : Nat → Nat)
    (timeout : Nat) (hms : StrictMono ms) (hus : StrictMono us) :
    ∃ ps, read_pulses line ms us timeout (timeout + 10002) = some ps ∧
      ps.length ≤ 100 ∧ ((∀ t, line t = true) → ps = []) := by
  unfold read_pulses
  cases hw : waitLow line ms (ms 0) timeout (timeout + 10002) 1 with
  | none =>
    exact absurd hw
      (waitLow_ne_none line ms timeout hms (timeout + 10002) 1
        (by omega) (by omega))
  | some r =>
    cases r with
    | none =>
      exact ⟨[], rfl, by simp, fun _ => rfl⟩
    | some t =>
      show ∃ ps, captureLoop line us 100 (timeout + 10002) (t + 1) []
          = some ps ∧ ps.length ≤ 100 ∧ ((∀ u, line u = true) → ps = [])
      cases hc : captureLoop line us 100 (timeout + 10002) (t + 1) [] with
      | none =>
        exact absurd hc
          (captureLoop_ne_none line us hus 100 (timeout + 10002) (t + 1) []
            (by omega))
      | some ps =>
        refine ⟨ps, rfl, ?_, ?_⟩
        · have hb := captureLoop_length line us 100 (timeout + 10002)
            (t + 1) [] ps hc
          simpa using hb
        · intro hall
          have hlow := waitLow_low line ms (ms 0) timeout
            (timeout + 10002) 1 t hw
          rw [hall t] at hlow
          exact Bool.noConfusion hlow

/-- Witness for C8 with identity clocks and a line that never goes low. -/
theorem C8_capture_terminates_bounded_witness :
    ∃ ps, read_pulses (fun (_ : Nat) => true) (fun n => n) (fun n => n) 0 10002
        = some ps ∧
      ps.length ≤ 100 ∧
      ((∀ t, (fun (_ : Nat) => true) t = true) → ps = []) :=
  C8_capture_terminates_bounded (fun _ => true) (fun n => n) (fun n => n) 0
    strictMono_id strictMono_id

end IrRemote
